import Mathlib

/-!
Verification development for the pattern-detection and strategy-backtesting
engine of the ALGO_PROJECT repository.

The repository ships the SQL storage layer (`database/schema.sql`), the web
dashboard glue (`frontend/src/stores/candlesticksStore.js`) and the
backtester's documentation (`backtester/PATTERN_RECOGNITION_GUIDE.md`).
The backtester's own Python modules (`src/patterns/peaks.py`,
`src/patterns/double_patterns.py`, `src/strategies/*`, `src/portfolio/base.py`)
are referenced by the guide but are not part of the shipped sources, so the
algorithmic core below is modelled from the specification's own words; the
SQL aggregation layer is embedded directly from `schema.sql`.

Prices are modelled as rationals (ℚ): the spec's tolerance test divides a
price difference by a price, and the metrics divide profits, so a field with
decidable ordering is needed; timestamps are naturals (minutes since epoch
for the SQL layer, opaque ordinals elsewhere).
-/

namespace Algo

/-- One OHLCV sample for a fixed time interval (spec §3 Bar). -/
structure Bar where
  timestamp : Nat
  open_ : ℚ
  high : ℚ
  low : ℚ
  close : ℚ
  volume : Nat
deriving Repr, DecidableEq

/-- Peak / trough marker for an extremum point (spec §3 ExtremumPoint.kind). -/
inductive ExtKind where
  | peak
  | trough
deriving Repr, DecidableEq

/-- A local extremum of the price series (spec §3 ExtremumPoint; the
timestamp field of the spec record is omitted: it is a copy of the bar's
timestamp at `index` and no claim mentions it). -/
structure ExtremumPoint where
  index : Nat
  price : ℚ
  kind : ExtKind
deriving Repr, DecidableEq

/-! ### ExtremumDetector (spec §4.1)

Modelled from the spec: the detector's code (`src/patterns/peaks.py`) is not
in the shipped sources.  Spec §4.1: index `i` is a peak iff `prices[i]` is
strictly greater than every other value in `[i-order, i+order]`; indices
closer than `order` to either boundary never qualify; troughs use the strict
minimum rule. -/

/-- Modelled from the spec: `i` qualifies as a peak — the full window
`[i-order, i+order]` fits inside the series and `prices[i]` strictly exceeds
every other value in it (spec §4.1, bullet 1 and the edge policy bullet). -/
def isPeakAt (prices : List ℚ) (order i : Nat) : Bool :=
  decide (order ≤ i) && decide (i + order < prices.length) &&
    (List.range (2 * order + 1)).all fun k =>
      let j := i - order + k
      j == i || decide (prices.getD j 0 < prices.getD i 0)

/-- Modelled from the spec: strict-minimum analogue of `isPeakAt`
(spec §4.1, "analogous strict-minimum rule for troughs"). -/
def isTroughAt (prices : List ℚ) (order i : Nat) : Bool :=
  decide (order ≤ i) && decide (i + order < prices.length) &&
    (List.range (2 * order + 1)).all fun k =>
      let j := i - order + k
      j == i || decide (prices.getD i 0 < prices.getD j 0)

/-- Modelled from the spec: `detect(prices, order) -> (peaks, troughs)`
(spec §4.1) — a single ascending index scan collecting the qualifying
indices as ExtremumPoints. -/
def detect (prices : List ℚ) (order : Nat) : List ExtremumPoint × List ExtremumPoint :=
  (((List.range prices.length).filter (isPeakAt prices order)).map
      (fun i => ⟨i, prices.getD i 0, .peak⟩),
   ((List.range prices.length).filter (isTroughAt prices order)).map
      (fun i => ⟨i, prices.getD i 0, .trough⟩))

end Algo

namespace Algo

/-- The logical peak condition of spec §4.1, stated directly over indices:
the window fits and every other index of the window carries a strictly
smaller value. -/
def PeakSpec (prices : List ℚ) (order i : Nat) : Prop :=
  order ≤ i ∧ i + order < prices.length ∧
    ∀ j, i - order ≤ j → j ≤ i + order → j ≠ i → prices.getD j 0 < prices.getD i 0

/-- The logical trough condition of spec §4.1. -/
def TroughSpec (prices : List ℚ) (order i : Nat) : Prop :=
  order ≤ i ∧ i + order < prices.length ∧
    ∀ j, i - order ≤ j → j ≤ i + order → j ≠ i → prices.getD i 0 < prices.getD j 0

/-- DoubleTop / DoubleBottom marker (spec §3 PatternEvent.kind). -/
inductive PatternKind where
  | doubleTop
  | doubleBottom
deriving Repr, DecidableEq

/-- A confirmed double pattern (spec §3 PatternEvent). -/
structure PatternEvent where
  kind : PatternKind
  firstExtremum : ExtremumPoint
  secondExtremum : ExtremumPoint
  intervening : ExtremumPoint
  confirmationIndex : Nat
  breakoutPrice : ℚ
deriving Repr, DecidableEq

/-- PatternMatcher configuration (spec §4.2 contract arguments). -/
structure PatternConfig where
  tolerance : ℚ
  minBarsBetween : Nat
  maxBarsBetween : Nat
deriving Repr, DecidableEq

/-- Modelled from the spec: steps 1–2 of §4.2 — the pair is ordered, the
index distance lies in `[min_bars_between, max_bars_between]`, and the
relative price difference is within tolerance. -/
def pairOk (cfg : PatternConfig) (e1 e2 : ExtremumPoint) : Bool :=
  decide (e1.index < e2.index) &&
  decide (cfg.minBarsBetween ≤ e2.index - e1.index) &&
  decide (e2.index - e1.index ≤ cfg.maxBarsBetween) &&
  decide (|e1.price - e2.price| / e1.price ≤ cfg.tolerance)

/-- Modelled from the spec: the opposite-kind extrema strictly between the
two indices (step 3 of §4.2 requires exactly one of these). -/
def betweenExtrema (opp : List ExtremumPoint) (e1 e2 : ExtremumPoint) : List ExtremumPoint :=
  opp.filter fun m => decide (e1.index < m.index) && decide (m.index < e2.index)

/-- The breakout test at one bar: below the level for a DoubleTop, above it
for a DoubleBottom (spec §4.2 step 4). -/
def crossesAt (kind : PatternKind) (closes : List ℚ) (level : ℚ) (j : Nat) : Bool :=
  match kind with
  | .doubleTop => decide (closes.getD j 0 < level)
  | .doubleBottom => decide (level < closes.getD j 0)

/-- Modelled from the spec: the confirmation scan of §4.2 step 4 — scan
forward bar-by-bar from `j` and return the first index whose close crosses
the level in the breakout direction, or `none` at the end of the series. -/
def confirmFrom (kind : PatternKind) (closes : List ℚ) (level : ℚ) (j : Nat) : Option Nat :=
  (List.range' j (closes.length - j)).find? (crossesAt kind closes level)

/-- All ordered pairs `(e1, e2)` with `e1` occurring before `e2` in the
list (spec §4.2 step 1 enumerates ordered same-kind pairs). -/
def orderedPairs : List ExtremumPoint → List (ExtremumPoint × ExtremumPoint)
  | [] => []
  | e :: rest => rest.map (fun e2 => (e, e2)) ++ orderedPairs rest

/-- Modelled from the spec: one direction of §4.2 — enumerate ordered
same-kind pairs, apply the tolerance and distance checks, require exactly
one opposite-kind intervening extremum, run the confirmation scan, and emit
one PatternEvent per confirmed candidate with `breakout_price` the
intervening extremum's price (steps 1–5). -/
def detectSide (kind : PatternKind) (same opp : List ExtremumPoint) (closes : List ℚ)
    (cfg : PatternConfig) : List PatternEvent :=
  (orderedPairs same).filterMap fun p =>
    if pairOk cfg p.1 p.2 then
      match betweenExtrema opp p.1 p.2 with
      | [m] =>
        match confirmFrom kind closes m.price (p.2.index + 1) with
        | some c => some ⟨kind, p.1, p.2, m, c, m.price⟩
        | none => none
      | _ => none
    else none

/-- Modelled from the spec: `find_double_patterns` (spec §4.2 contract) —
DoubleTops over the peak list with troughs intervening, DoubleBottoms over
the trough list with peaks intervening. -/
def find_double_patterns (peaks troughs : List ExtremumPoint) (closes : List ℚ)
    (cfg : PatternConfig) : List PatternEvent :=
  detectSide .doubleTop peaks troughs closes cfg ++
    detectSide .doubleBottom troughs peaks closes cfg

/-! ### StrategyEngine (spec §4.3)

Modelled from the spec: the strategy code (`src/strategies/*.py`) is not in
the shipped sources. -/

/-- Strategy configuration record (spec §6 configuration surface; the
optional stop-loss / take-profit options are omitted — no claim exercises
them). -/
structure StrategyConfig where
  tolerance : ℚ
  minBarsBetween : Nat
  maxBarsBetween : Nat
  peakOrder : Nat
  troughOrder : Nat
deriving Repr, DecidableEq

/-- Two aligned boolean signal sequences (spec §3 SignalSeries). -/
structure SignalSeries where
  buy : List Bool
  sell : List Bool
deriving Repr, DecidableEq

/-- Modelled from the spec: `calculate_indicators` of DoubleTopBottomStrategy
(spec §4.3) — detect extrema on the close series with the configured orders
and run the PatternMatcher; a pure function of bars and configuration. -/
def calculate_indicators (bars : List Bar) (cfg : StrategyConfig) : List PatternEvent :=
  let closes := bars.map (·.close)
  find_double_patterns (detect closes cfg.peakOrder).1 (detect closes cfg.troughOrder).2
    closes ⟨cfg.tolerance, cfg.minBarsBetween, cfg.maxBarsBetween⟩

/-- The boolean sequence of length `n` that is true exactly at the listed
indices. -/
def markIndices (n : Nat) (idxs : List Nat) : List Bool :=
  (List.range n).map fun i => idxs.contains i

/-- Modelled from the spec: `generate_signals` of DoubleTopBottomStrategy
(spec §4.3) — buy at each DoubleBottom confirmation index, sell at each
DoubleTop confirmation index; per §3 SignalSeries the implementer must
reject/flag an index where both would be set, modelled as an `Except`
error. -/
def generate_signals (bars : List Bar) (pats : List PatternEvent) :
    Except String SignalSeries :=
  let buySig := markIndices bars.length
    ((pats.filter fun ev => ev.kind == PatternKind.doubleBottom).map (·.confirmationIndex))
  let sellSig := markIndices bars.length
    ((pats.filter fun ev => ev.kind == PatternKind.doubleTop).map (·.confirmationIndex))
  if (List.range bars.length).all (fun i => !(buySig.getD i false && sellSig.getD i false)) then
    Except.ok ⟨buySig, sellSig⟩
  else
    Except.error "InvalidSignal: simultaneous buy and sell at one index"

/-- Modelled from the spec: one full detection + signal-generation run
(spec §2 data flow up to SignalSeries), used to state determinism. -/
def runPipeline (bars : List Bar) (cfg : StrategyConfig) :
    List PatternEvent × Except String SignalSeries :=
  let pats := calculate_indicators bars cfg
  (pats, generate_signals bars pats)

/-- Modelled from the spec: two repeated runs on identical input and
configuration (spec §8 idempotence property). -/
def runPipelineTwice (bars : List Bar) (cfg : StrategyConfig) :
    (List PatternEvent × Except String SignalSeries) ×
      (List PatternEvent × Except String SignalSeries) :=
  (runPipeline bars cfg, runPipeline bars cfg)

/-! ### PortfolioSimulator (spec §4.4)

Modelled from the spec: the simulator code (`src/portfolio/base.py`) is not
in the shipped sources.  The optional stop-loss / take-profit exits are
omitted (no claim exercises them). -/

/-- A closed round-trip trade (spec §3 Trade). -/
structure Trade where
  entryTime : Nat
  entryPrice : ℚ
  exitTime : Nat
  exitPrice : ℚ
  returnPct : ℚ
  profitPct : ℚ
  profitUsd : ℚ
deriving Repr, DecidableEq

/-- The live `Long` position while it is open (spec §4.4: entry at the
bar close, size a fraction of current equity). -/
structure OpenPosition where
  entryTime : Nat
  entryPrice : ℚ
  units : ℚ
deriving Repr, DecidableEq

/-- Simulator state: `position = none` is `Flat`, `some` is `Long`
(spec §4.4 state machine); `openedCount` counts `Flat → Long` transitions
so that "every opened position produces exactly one Trade" can be stated. -/
structure SimState where
  position : Option OpenPosition
  equity : ℚ
  trades : List Trade
  equityCurve : List (Nat × ℚ)
  openedCount : Nat
deriving Repr, DecidableEq

/-- The Trade record appended when a position closes (spec §3 Trade
fields; profit in currency is units times price move). -/
def mkTrade (p : OpenPosition) (t : Nat) (price : ℚ) : Trade :=
  { entryTime := p.entryTime, entryPrice := p.entryPrice, exitTime := t, exitPrice := price,
    returnPct := price / p.entryPrice - 1,
    profitPct := (price / p.entryPrice - 1) * 100,
    profitUsd := p.units * (price - p.entryPrice) }

/-- Equity marked to the current close: realized equity plus unrealized
profit of the open position, if any (spec §3 EquityCurve). -/
def markedEquity (s : SimState) (price : ℚ) : ℚ :=
  match s.position with
  | none => s.equity
  | some p => s.equity + p.units * (price - p.entryPrice)

/-- Modelled from the spec: one bar of the §4.4 state machine.
`Flat → Long` on a buy while Flat (entry = bar close, size =
`sizing` fraction of current equity); `Long → Flat` on a sell while Long
(exit = bar close, one Trade appended); a buy while Long and a sell while
Flat are ignored; one equity-curve entry is appended per bar. -/
def simStep (sizing : ℚ) (s : SimState) (step : Bar × Bool × Bool) : SimState :=
  let bar := step.1
  let s' :=
    match s.position with
    | none =>
      if step.2.1 then
        { s with position := some ⟨bar.timestamp, bar.close, sizing * s.equity / bar.close⟩,
                 openedCount := s.openedCount + 1 }
      else s
    | some p =>
      if step.2.2 then
        let tr := mkTrade p bar.timestamp bar.close
        { s with position := none, equity := s.equity + tr.profitUsd,
                 trades := s.trades ++ [tr] }
      else s
  { s' with equityCurve := s'.equityCurve ++ [(bar.timestamp, markedEquity s' bar.close)] }

/-- Modelled from the spec: `simulate(bars, buy, sell, initial_capital,
position_sizing)` (spec §4.4) — fold the state machine over the bars and
aligned signals, then force-close a position still open at the last bar at
the final close price. -/
def simRun (initialCapital sizing : ℚ) (bars : List Bar) (buySig sellSig : List Bool) :
    SimState :=
  (bars.zip (buySig.zip sellSig)).foldl (simStep sizing) ⟨none, initialCapital, [], [], 0⟩

/-- Modelled from the spec: the end-of-series half of `simulate` — a
position still `Long` after the last bar is force-closed at the final
close price (spec §4.4 end-of-series policy). -/
def simulate (initialCapital sizing : ℚ) (bars : List Bar) (buySig sellSig : List Bool) :
    SimState :=
  let s := simRun initialCapital sizing bars buySig sellSig
  match s.position, bars.getLast? with
  | some p, some lastBar =>
    let tr := mkTrade p lastBar.timestamp lastBar.close
    { s with position := none, equity := s.equity + tr.profitUsd,
             trades := s.trades ++ [tr] }
  | _, _ => s

/-! ### Performance metrics (spec §4.4)

Modelled from the spec: the metrics code (`src/portfolio/base.py`) is not in
the shipped sources. -/

/-- Modelled from the spec: `win_rate_pct` — share of trades with positive
currency profit, defined as 0 when there are no trades (spec §4.4). -/
def win_rate_pct (trades : List Trade) : ℚ :=
  if trades.length = 0 then 0
  else 100 * ((trades.filter fun t => 0 < t.profitUsd).length : ℚ) / (trades.length : ℚ)

/-- Mean of a rational list (0 on the empty list, where the spec's guards
make the value unused). -/
def meanQ (xs : List ℚ) : ℚ := xs.sum / (xs.length : ℚ)

/-- Population variance of a rational list. -/
def varianceQ (xs : List ℚ) : ℚ :=
  ((xs.map fun x => (x - meanQ xs) ^ 2).sum) / (xs.length : ℚ)

/-- Modelled from the spec: `sharpe_ratio` (spec §4.4) — mean return over
standard deviation, scaled by the square root of the annualization factor;
0 when there are no returns or the standard deviation is 0.  The square
root is not rational-valued, so it is taken as an explicit function
argument; the guards do not depend on it. -/
def sharpe (sqrtFn : ℚ → ℚ) (annualization : ℚ) (returns : List ℚ) : ℚ :=
  if returns.isEmpty then 0
  else
    let sd := sqrtFn (varianceQ returns)
    if sd = 0 then 0 else meanQ returns / sd * sqrtFn annualization

/-- Modelled from the spec: `profit_factor` (spec §4.4) — gross winning
profit over the absolute gross losing loss; the spec allows either an
infinity sentinel or 0 when there are no losing trades or no trades at
all, and this model documents the sentinel as 0. -/
def profit_factor (trades : List Trade) : ℚ :=
  let grossLoss := ((trades.filter fun t => t.profitUsd < 0).map (·.profitUsd)).sum
  if grossLoss = 0 then 0
  else ((trades.filter fun t => 0 < t.profitUsd).map (·.profitUsd)).sum / |grossLoss|

/-! ### Bar ingestion validation (spec §6, §7)

Modelled from the spec: the core's ingestion validation is not in the
shipped sources (the provider side is `frontend/src/stores/candlesticksStore.js`
and the `ohlcv_1min` view of `database/schema.sql`).  Spec §6: the core
validates only the returned shape — ascending timestamps, no null OHLC
fields — and §7 makes a violation a fatal `DataQualityError`. -/

/-- A bar as returned by the external provider: OHLC fields may be null
(spec §6 input contract). -/
structure RawBar where
  timestamp : Nat
  open_ : Option ℚ
  high : Option ℚ
  low : Option ℚ
  close : Option ℚ
  volume : Nat
deriving Repr, DecidableEq

/-- All four OHLC fields are present (spec §6: "no null OHLC fields"). -/
def rawComplete (b : RawBar) : Bool :=
  b.open_.isSome && b.high.isSome && b.low.isSome && b.close.isSome

/-- Adjacent-pair scan for strictly ascending timestamps (spec §3:
"strictly increasing in timestamp; no duplicate timestamps"). -/
def tsStrictlyIncreasing : List RawBar → Bool
  | [] => true
  | [_] => true
  | a :: b :: rest => decide (a.timestamp < b.timestamp) && tsStrictlyIncreasing (b :: rest)

/-- Fill a validated raw bar into the core's Bar record. -/
def toBar (b : RawBar) : Bar :=
  ⟨b.timestamp, b.open_.getD 0, b.high.getD 0, b.low.getD 0, b.close.getD 0, b.volume⟩

/-- Modelled from the spec: the core's ingestion gate — accept the
sequence iff timestamps strictly ascend and no OHLC field is null,
otherwise reject with a fatal `DataQualityError` before any detection
runs (spec §6 and §7). -/
def validate_bars (raw : List RawBar) : Except String (List Bar) :=
  if tsStrictlyIncreasing raw && raw.all rawComplete then
    Except.ok (raw.map toBar)
  else
    Except.error "DataQualityError: non-monotonic timestamps or missing OHLC fields"

/-! ### SQL aggregation layer (`database/schema.sql`)

Embedded from the source: the `aggregate_bars` function (schema.sql lines
85–116) and the `ohlcv_5min`-family materialized views (lines 122–236).
Timestamps are minutes since epoch, so `DATE_TRUNC('hour', ts)` is
`(t / 60) * 60` and `EXTRACT(MINUTE FROM ts)` is `t % 60`.  The views'
`bar_count`, `average` and `source` columns are not modelled: no claim
mentions them. -/

/-- One row of the `ohlcv_1min` view (schema.sql lines 67–80). -/
structure Row where
  symbol : String
  timestamp : Nat
  open_ : ℚ
  high : ℚ
  low : ℚ
  close : ℚ
  volume : Int
deriving Repr, DecidableEq

/-- One aggregated bar as returned by `aggregate_bars` or a timeframe
view. -/
structure AggRow where
  symbol : String
  timestamp : Nat
  open_ : ℚ
  high : ℚ
  low : ℚ
  close : ℚ
  volume : Int
deriving Repr, DecidableEq

/-- The grouping key `DATE_TRUNC('hour', ts) + (EXTRACT(MINUTE FROM
ts)::INTEGER / p) * (p minutes)` of `aggregate_bars` and the minute-level
views (schema.sql lines 101–103, 126–127). -/
def minuteBucket (p : Nat) (t : Nat) : Nat :=
  t / 60 * 60 + t % 60 / p * p

/-- Semantics of `(ARRAY_AGG(x ORDER BY timestamp))[1]`: the
first-encountered row with minimal timestamp among `first :: rest`. -/
def earliestRow (first : Row) (rest : List Row) : Row :=
  rest.foldl (fun a r => if r.timestamp < a.timestamp then r else a) first

/-- Semantics of `(ARRAY_AGG(x ORDER BY timestamp DESC))[1]`: the
last-encountered row with maximal timestamp among `first :: rest`. -/
def latestRow (first : Row) (rest : List Row) : Row :=
  rest.foldl (fun a r => if a.timestamp ≤ r.timestamp then r else a) first

/-- Insert a key into a sorted key list (used for the `ORDER BY
bar_timestamp` of `aggregate_bars`, schema.sql line 114). -/
def insertKey (k : Nat) : List Nat → List Nat
  | [] => [k]
  | a :: t => if k ≤ a then k :: a :: t else a :: insertKey k t

/-- Insertion sort over bucket keys (`ORDER BY bar_timestamp`). -/
def sortKeys : List Nat → List Nat
  | [] => []
  | k :: rest => insertKey k (sortKeys rest)

/-- The SELECT-list of one GROUP BY group (schema.sql lines 104–108 and
128–132): open of the earliest row, `MAX(high)`, `MIN(low)`, close of the
latest row, `SUM(volume)`; `none` when the group is empty (SQL emits no
row for an empty group). -/
def aggregateGroup (sym : String) (k : Nat) (g : List Row) : Option AggRow :=
  match g with
  | [] => none
  | first :: rest =>
    some { symbol := sym, timestamp := k,
           open_ := (earliestRow first rest).open_,
           high := rest.foldl (fun a r => max a r.high) first.high,
           low := rest.foldl (fun a r => min a r.low) first.low,
           close := (latestRow first rest).close,
           volume := ((first :: rest).map (·.volume)).sum }

/-- The WHERE clause of `aggregate_bars` (schema.sql lines 110–112). -/
def aggSelect (rows : List Row) (p_symbol : String) (p_start p_stop : Nat) : List Row :=
  rows.filter fun r =>
    r.symbol == p_symbol && decide (p_start ≤ r.timestamp) && decide (r.timestamp < p_stop)

/-- Embedded from schema.sql lines 85–116: `aggregate_bars(p_symbol,
p_start_time, p_end_time, p_interval_minutes)` — filter to the symbol and
time range, group by the minute bucket, aggregate each group, order by
bucket timestamp. -/
def aggregate_bars (rows : List Row) (p_symbol : String) (p_start p_stop : Nat)
    (p_interval : Nat) : List AggRow :=
  let sel := aggSelect rows p_symbol p_start p_stop
  let keys := sortKeys (sel.map fun r => minuteBucket p_interval r.timestamp).dedup
  keys.filterMap fun k =>
    aggregateGroup p_symbol k (sel.filter fun r => minuteBucket p_interval r.timestamp == k)

/-- Embedded from schema.sql lines 122–180: the minute-level timeframe
views (`ohlcv_5min`, `ohlcv_15min`, `ohlcv_30min` are this with
`p = 5, 15, 30`) — group the whole 1-minute view by symbol and minute
bucket and aggregate each group. -/
def timeframeView (rows : List Row) (p : Nat) : List AggRow :=
  let keys := (rows.map fun r => (r.symbol, minuteBucket p r.timestamp)).dedup
  keys.filterMap fun sk =>
    aggregateGroup sk.1 sk.2
      (rows.filter fun r => r.symbol == sk.1 && minuteBucket p r.timestamp == sk.2)

/-- Embedded from schema.sql lines 122–140: `ohlcv_5min`. -/
def ohlcv_5min (rows : List Row) : List AggRow := timeframeView rows 5

/-- Embedded from schema.sql lines 142–160: `ohlcv_15min`. -/
def ohlcv_15min (rows : List Row) : List AggRow := timeframeView rows 15

/-- Embedded from schema.sql lines 162–180: `ohlcv_30min`. -/
def ohlcv_30min (rows : List Row) : List AggRow := timeframeView rows 30

/-! ### Concrete inputs used by witnesses -/

/-- A double-top-shaped close series: rise to 10, dip to 2, rise to 10,
fall to 1 (breakout below the dip). -/
def exCloses : List ℚ := [1, 5, 10, 5, 2, 5, 10, 5, 1]

/-- The two peaks of `exCloses` at half-width 2. -/
def exPeaks : List ExtremumPoint := [⟨2, 10, .peak⟩, ⟨6, 10, .peak⟩]

/-- The single trough of `exCloses` at half-width 2. -/
def exTroughs : List ExtremumPoint := [⟨4, 2, .trough⟩]

/-- A 2% tolerance, 1–10 bar spacing configuration. -/
def exCfg : PatternConfig := ⟨1 / 50, 1, 10⟩

/-- The one DoubleTop event found on `exCloses`. -/
def exEvent : PatternEvent := ⟨.doubleTop, ⟨2, 10, .peak⟩, ⟨6, 10, .peak⟩, ⟨4, 2, .trough⟩, 8, 2⟩

/-- Bars carrying `exCloses` as their close series. -/
def exBars : List Bar :=
  [⟨0, 1, 1, 1, 1, 0⟩, ⟨1, 5, 5, 5, 5, 0⟩, ⟨2, 10, 10, 10, 10, 0⟩, ⟨3, 5, 5, 5, 5, 0⟩,
   ⟨4, 2, 2, 2, 2, 0⟩, ⟨5, 5, 5, 5, 5, 0⟩, ⟨6, 10, 10, 10, 10, 0⟩, ⟨7, 5, 5, 5, 5, 0⟩,
   ⟨8, 1, 1, 1, 1, 0⟩]

/-- Three rising bars for the simulator witnesses. -/
def exSimBars : List Bar := [⟨0, 1, 1, 1, 1, 0⟩, ⟨1, 2, 2, 2, 2, 0⟩, ⟨2, 3, 3, 3, 3, 0⟩]

/-- A well-formed two-bar raw sequence from the provider. -/
def exRaw : List RawBar :=
  [⟨0, some 1, some 1, some 1, some 1, 0⟩, ⟨1, some 2, some 2, some 2, some 2, 0⟩]

/-- Three 1-minute rows of one symbol: two in bucket 0, one in bucket 5. -/
def exRows : List Row :=
  [⟨"X", 0, 1, 5, 0, 2, 10⟩, ⟨"X", 1, 2, 7, 1, 3, 20⟩, ⟨"X", 6, 4, 6, 2, 5, 30⟩]

/-- The bucket-0 aggregate of `exRows`. -/
def exAgg : AggRow := ⟨"X", 0, 1, 7, 0, 3, 30⟩

/-- The property claimed of one aggregated bar over its constituent
1-minute rows `g`: high is the maximum of the highs, low the minimum of
the lows, volume the sum of the volumes, open the open of an earliest
constituent and close the close of a latest constituent. -/
def AggSpec (agg : AggRow) (g : List Row) : Prop :=
  (∃ r ∈ g, agg.high = r.high) ∧ (∀ r ∈ g, r.high ≤ agg.high) ∧
  (∃ r ∈ g, agg.low = r.low) ∧ (∀ r ∈ g, agg.low ≤ r.low) ∧
  agg.volume = (g.map (·.volume)).sum ∧
  (∃ r ∈ g, agg.open_ = r.open_ ∧ ∀ q ∈ g, r.timestamp ≤ q.timestamp) ∧
  (∃ r ∈ g, agg.close = r.close ∧ ∀ q ∈ g, q.timestamp ≤ r.timestamp)

theorem find?_range'_spec (p : Nat → Bool) :
    ∀ (n j c : Nat), (List.range' j n).find? p = some c →
      j ≤ c ∧ c < j + n ∧ p c = true ∧ ∀ k, j ≤ k → k < c → p k = false := by
  intro n
  induction n with
  | zero => intro j c h; simp [List.range'] at h
  | succ n ih =>
    intro j c h
    rw [List.range'_succ] at h
    by_cases hpj : p j
    · rw [List.find?_cons_of_pos _ hpj] at h
      obtain rfl : j = c := by simpa using h
      exact ⟨le_refl j, by omega, hpj, fun k h1 h2 => absurd (lt_of_le_of_lt h1 h2) (lt_irrefl j)⟩
    · rw [List.find?_cons_of_neg _ hpj] at h
      obtain ⟨h1, h2, h3, h4⟩ := ih (j + 1) c h
      refine ⟨by omega, by omega, h3, fun k hk1 hk2 => ?_⟩
      rcases Nat.eq_or_lt_of_le hk1 with rfl | hk
      · exact Bool.not_eq_true _ ▸ (by simpa using hpj)
      · exact h4 k hk hk2

theorem confirmFrom_spec (kind : PatternKind) (closes : List ℚ) (level : ℚ) (j c : Nat)
    (h : confirmFrom kind closes level j = some c) :
    j ≤ c ∧ c < closes.length ∧ crossesAt kind closes level c = true ∧
      ∀ k, j ≤ k → k < c → crossesAt kind closes level k = false := by
  obtain ⟨h1, h2, h3, h4⟩ := find?_range'_spec (crossesAt kind closes level) _ _ _ h
  exact ⟨h1, by omega, h3, h4⟩

theorem orderedPairs_mem :
    ∀ (l : List ExtremumPoint) (e1 e2 : ExtremumPoint),
      (e1, e2) ∈ orderedPairs l → e1 ∈ l ∧ e2 ∈ l := by
  intro l
  induction l with
  | nil => intro e1 e2 h; simp [orderedPairs] at h
  | cons e rest ih =>
    intro e1 e2 h
    simp only [orderedPairs, List.mem_append, List.mem_map] at h
    rcases h with ⟨e2', he2', heq⟩ | h
    · cases heq
      exact ⟨List.mem_cons_self _ _, List.mem_cons_of_mem _ he2'⟩
    · obtain ⟨h1, h2⟩ := ih e1 e2 h
      exact ⟨List.mem_cons_of_mem _ h1, List.mem_cons_of_mem _ h2⟩

theorem mem_betweenExtrema (opp : List ExtremumPoint) (e1 e2 m : ExtremumPoint) :
    m ∈ betweenExtrema opp e1 e2 ↔ m ∈ opp ∧ e1.index < m.index ∧ m.index < e2.index := by
  simp [betweenExtrema, List.mem_filter, and_assoc]

theorem detectSide_mem (kind : PatternKind) (same opp : List ExtremumPoint)
    (closes : List ℚ) (cfg : PatternConfig) (ev : PatternEvent)
    (h : ev ∈ detectSide kind same opp closes cfg) :
    ∃ e1 e2 m c, (e1, e2) ∈ orderedPairs same ∧ pairOk cfg e1 e2 = true ∧
      betweenExtrema opp e1 e2 = [m] ∧
      confirmFrom kind closes m.price (e2.index + 1) = some c ∧
      ev = ⟨kind, e1, e2, m, c, m.price⟩ := by
  simp only [detectSide, List.mem_filterMap] at h
  obtain ⟨p, hp, hf⟩ := h
  split at hf
  · split at hf
    · split at hf
      · injection hf with hev
        exact ⟨p.1, p.2, _, _, hp, by assumption, by assumption, by assumption, hev.symm⟩
      · exact absurd hf (by simp)
    · exact absurd hf (by simp)
  · exact absurd hf (by simp)

/-- C1: every PatternEvent emitted by `find_double_patterns` confirms at
the first index strictly after the second extremum at which the close
crosses the intervening extremum's price in the breakout direction, its
breakout price is that intervening price, and a candidate whose level is
never crossed before the end of the series yields no PatternEvent. -/
theorem claim_C1 (peaks troughs : List ExtremumPoint) (closes : List ℚ) (cfg : PatternConfig) :
    (∀ ev ∈ find_double_patterns peaks troughs closes cfg,
      ev.breakoutPrice = ev.intervening.price ∧
      ev.secondExtremum.index < ev.confirmationIndex ∧
      ev.confirmationIndex < closes.length ∧
      crossesAt ev.kind closes ev.intervening.price ev.confirmationIndex = true ∧
      ∀ k, ev.secondExtremum.index < k → k < ev.confirmationIndex →
        crossesAt ev.kind closes ev.intervening.price k = false) ∧
    (∀ (kind : PatternKind) (e2idx : Nat) (level : ℚ),
      (∀ k, e2idx < k → k < closes.length → crossesAt kind closes level k = false) →
      ∀ ev ∈ find_double_patterns peaks troughs closes cfg,
        ev.kind = kind → ev.secondExtremum.index = e2idx →
        ev.intervening.price = level → False) := by
  have main : ∀ ev ∈ find_double_patterns peaks troughs closes cfg,
      ev.breakoutPrice = ev.intervening.price ∧
      ev.secondExtremum.index < ev.confirmationIndex ∧
      ev.confirmationIndex < closes.length ∧
      crossesAt ev.kind closes ev.intervening.price ev.confirmationIndex = true ∧
      ∀ k, ev.secondExtremum.index < k → k < ev.confirmationIndex →
        crossesAt ev.kind closes ev.intervening.price k = false := by
    intro ev hev
    simp only [find_double_patterns, List.mem_append] at hev
    rcases hev with hev | hev
    all_goals
      obtain ⟨e1, e2, m, c, hpair, hok, hbet, hconf, rfl⟩ := detectSide_mem _ _ _ _ _ _ hev
      obtain ⟨h1, h2, h3, h4⟩ := confirmFrom_spec _ _ _ _ _ hconf
      dsimp only
      exact ⟨rfl, by omega, h2, h3, fun k hk1 hk2 => h4 k (by omega) hk2⟩
  refine ⟨main, fun kind e2idx level hnone ev hev hk hi hl => ?_⟩
  obtain ⟨-, hlt, hlen, hcross, -⟩ := main ev hev
  rw [hk, hl] at hcross
  rw [hi] at hlt
  exact absurd hcross (by simp [hnone ev.confirmationIndex hlt hlen])

/-- C3: every PatternEvent emitted by `find_double_patterns` has strictly
ordered indices `first < intervening < second < confirmation`, outer
extrema of the matching kind within the configured relative tolerance,
and an intervening extremum of the opposite kind. -/
theorem claim_C3 (peaks troughs : List ExtremumPoint) (closes : List ℚ) (cfg : PatternConfig)
    (hp : ∀ e ∈ peaks, e.kind = ExtKind.peak)
    (ht : ∀ e ∈ troughs, e.kind = ExtKind.trough) :
    ∀ ev ∈ find_double_patterns peaks troughs closes cfg,
      ev.firstExtremum.index < ev.intervening.index ∧
      ev.intervening.index < ev.secondExtremum.index ∧
      ev.secondExtremum.index < ev.confirmationIndex ∧
      (ev.kind = PatternKind.doubleTop →
        ev.firstExtremum.kind = ExtKind.peak ∧ ev.secondExtremum.kind = ExtKind.peak ∧
          ev.intervening.kind = ExtKind.trough) ∧
      (ev.kind = PatternKind.doubleBottom →
        ev.firstExtremum.kind = ExtKind.trough ∧ ev.secondExtremum.kind = ExtKind.trough ∧
          ev.intervening.kind = ExtKind.peak) ∧
      |ev.firstExtremum.price - ev.secondExtremum.price| / ev.firstExtremum.price ≤
        cfg.tolerance := by
  intro ev hev
  simp only [find_double_patterns, List.mem_append] at hev
  rcases hev with hev | hev
  · obtain ⟨e1, e2, m, c, hpair, hok, hbet, hconf, rfl⟩ := detectSide_mem _ _ _ _ _ _ hev
    obtain ⟨he1, he2⟩ := orderedPairs_mem _ _ _ hpair
    have hm : m ∈ betweenExtrema troughs e1 e2 := hbet ▸ List.mem_singleton.mpr rfl
    obtain ⟨hmo, hm1, hm2⟩ := (mem_betweenExtrema _ _ _ _).mp hm
    obtain ⟨hc1, -, -, -⟩ := confirmFrom_spec _ _ _ _ _ hconf
    simp only [pairOk, Bool.and_eq_true, decide_eq_true_eq] at hok
    dsimp only
    exact ⟨hm1, hm2, by omega, fun _ => ⟨hp e1 he1, hp e2 he2, ht m hmo⟩,
      fun hkk => by simp at hkk, hok.2⟩
  · obtain ⟨e1, e2, m, c, hpair, hok, hbet, hconf, rfl⟩ := detectSide_mem _ _ _ _ _ _ hev
    obtain ⟨he1, he2⟩ := orderedPairs_mem _ _ _ hpair
    have hm : m ∈ betweenExtrema peaks e1 e2 := hbet ▸ List.mem_singleton.mpr rfl
    obtain ⟨hmo, hm1, hm2⟩ := (mem_betweenExtrema _ _ _ _).mp hm
    obtain ⟨hc1, -, -, -⟩ := confirmFrom_spec _ _ _ _ _ hconf
    simp only [pairOk, Bool.and_eq_true, decide_eq_true_eq] at hok
    dsimp only
    exact ⟨hm1, hm2, by omega, fun hkk => by simp at hkk,
      fun _ => ⟨ht e1 he1, ht e2 he2, hp m hmo⟩, hok.2⟩

theorem isPeakAt_iff (prices : List ℚ) (order i : Nat) :
    isPeakAt prices order i = true ↔ PeakSpec prices order i := by
  unfold isPeakAt PeakSpec
  simp only [Bool.and_eq_true, decide_eq_true_eq, List.all_eq_true, List.mem_range,
    Bool.or_eq_true, beq_iff_eq]
  constructor
  · rintro ⟨⟨h1, h2⟩, h3⟩
    refine ⟨h1, h2, fun j hj1 hj2 hj3 => ?_⟩
    have hk : j - (i - order) < 2 * order + 1 := by omega
    have := h3 (j - (i - order)) hk
    have hj : i - order + (j - (i - order)) = j := by omega
    rw [hj] at this
    rcases this with h | h
    · exact absurd h hj3
    · exact h
  · rintro ⟨h1, h2, h3⟩
    refine ⟨⟨h1, h2⟩, fun k hk => ?_⟩
    by_cases hji : i - order + k = i
    · exact Or.inl hji
    · exact Or.inr (h3 (i - order + k) (by omega) (by omega) hji)

theorem isTroughAt_iff (prices : List ℚ) (order i : Nat) :
    isTroughAt prices order i = true ↔ TroughSpec prices order i := by
  unfold isTroughAt TroughSpec
  simp only [Bool.and_eq_true, decide_eq_true_eq, List.all_eq_true, List.mem_range,
    Bool.or_eq_true, beq_iff_eq]
  constructor
  · rintro ⟨⟨h1, h2⟩, h3⟩
    refine ⟨h1, h2, fun j hj1 hj2 hj3 => ?_⟩
    have hk : j - (i - order) < 2 * order + 1 := by omega
    have := h3 (j - (i - order)) hk
    have hj : i - order + (j - (i - order)) = j := by omega
    rw [hj] at this
    rcases this with h | h
    · exact absurd h hj3
    · exact h
  · rintro ⟨h1, h2, h3⟩
    refine ⟨⟨h1, h2⟩, fun k hk => ?_⟩
    by_cases hji : i - order + k = i
    · exact Or.inl hji
    · exact Or.inr (h3 (i - order + k) (by omega) (by omega) hji)

/-- Membership in the peak list of `detect` is exactly the logical peak
condition. -/
theorem mem_detect_peaks_iff (prices : List ℚ) (order i : Nat) :
    (∃ e ∈ (detect prices order).1, e.index = i) ↔ PeakSpec prices order i := by
  unfold detect
  simp only [List.mem_map, List.mem_filter, List.mem_range]
  constructor
  · rintro ⟨e, ⟨⟨j, ⟨hj, hpk⟩, rfl⟩, rfl⟩⟩
    exact (isPeakAt_iff prices order j).mp hpk
  · intro h
    refine ⟨⟨i, prices.getD i 0, .peak⟩, ⟨i, ⟨?_, (isPeakAt_iff prices order i).mpr h⟩, rfl⟩, rfl⟩
    obtain ⟨-, h2, -⟩ := h
    omega


/-- Membership in the trough list of `detect` is exactly the logical trough
condition. -/
theorem mem_detect_troughs_iff (prices : List ℚ) (order i : Nat) :
    (∃ e ∈ (detect prices order).2, e.index = i) ↔ TroughSpec prices order i := by
  unfold detect
  simp only [List.mem_map, List.mem_filter, List.mem_range]
  constructor
  · rintro ⟨e, ⟨⟨j, ⟨hj, hpk⟩, rfl⟩, rfl⟩⟩
    exact (isTroughAt_iff prices order j).mp hpk
  · intro h
    refine ⟨⟨i, prices.getD i 0, .trough⟩, ⟨i, ⟨?_, (isTroughAt_iff prices order i).mpr h⟩, rfl⟩, rfl⟩
    obtain ⟨-, h2, -⟩ := h
    omega

theorem exPatterns_eq : find_double_patterns exPeaks exTroughs exCloses exCfg = [exEvent] := by
  have hpair : pairOk exCfg ⟨2, 10, ExtKind.peak⟩ ⟨6, 10, ExtKind.peak⟩ = true := by
    simp only [pairOk, Bool.and_eq_true, decide_eq_true_eq, exCfg]
    norm_num
  unfold find_double_patterns detectSide exPeaks exTroughs
  rw [show orderedPairs [⟨2, 10, .peak⟩, ⟨6, 10, .peak⟩] =
      [(⟨2, 10, .peak⟩, ⟨6, 10, .peak⟩)] from rfl]
  rw [show orderedPairs [(⟨4, 2, .trough⟩ : ExtremumPoint)] = [] from rfl]
  rw [List.filterMap_nil, List.filterMap_cons, List.filterMap_nil]
  rw [hpair]
  simp only [if_true]
  rfl

theorem claim_C1_witness :
    exEvent.breakoutPrice = exEvent.intervening.price ∧
    exEvent.secondExtremum.index < exEvent.confirmationIndex ∧
    exEvent.confirmationIndex < exCloses.length ∧
    crossesAt exEvent.kind exCloses exEvent.intervening.price exEvent.confirmationIndex = true := by
  have h := (claim_C1 exPeaks exTroughs exCloses exCfg).1 exEvent
    (exPatterns_eq ▸ List.mem_singleton.mpr rfl)
  exact ⟨h.1, h.2.1, h.2.2.1, h.2.2.2.1⟩

theorem claim_C3_witness :
    exEvent.firstExtremum.index < exEvent.intervening.index ∧
    exEvent.intervening.index < exEvent.secondExtremum.index ∧
    exEvent.secondExtremum.index < exEvent.confirmationIndex ∧
    |exEvent.firstExtremum.price - exEvent.secondExtremum.price| / exEvent.firstExtremum.price ≤
      exCfg.tolerance := by
  have h := claim_C3 exPeaks exTroughs exCloses exCfg (by decide) (by decide) exEvent
    (exPatterns_eq ▸ List.mem_singleton.mpr rfl)
  exact ⟨h.1, h.2.1, h.2.2.1, h.2.2.2.2.2⟩

/-- C2: with a positive half-width `order`, an interior index is marked
as a peak (resp. trough) exactly when its price is a strict maximum
(resp. minimum) over the window `[i-order, i+order]`, and indices closer
than `order` to either boundary are never marked. -/
theorem claim_C2 (prices : List ℚ) (order : Nat) (h : 0 < order) :
    (∀ i, order ≤ i → i + order < prices.length →
      ((∃ e ∈ (detect prices order).1, e.index = i) ↔
        ∀ j, i - order ≤ j → j ≤ i + order → j ≠ i →
          prices.getD j 0 < prices.getD i 0)) ∧
    (∀ i, order ≤ i → i + order < prices.length →
      ((∃ e ∈ (detect prices order).2, e.index = i) ↔
        ∀ j, i - order ≤ j → j ≤ i + order → j ≠ i →
          prices.getD i 0 < prices.getD j 0)) ∧
    ∀ i, i < order ∨ prices.length ≤ i + order →
      (∀ e ∈ (detect prices order).1, e.index ≠ i) ∧
      (∀ e ∈ (detect prices order).2, e.index ≠ i) := by
  refine ⟨fun i h1 h2 => ?_, fun i h1 h2 => ?_, fun i hb => ⟨fun e he hei => ?_, fun e he hei => ?_⟩⟩
  · rw [mem_detect_peaks_iff]
    unfold PeakSpec
    constructor
    · rintro ⟨-, -, hw⟩
      exact hw
    · intro hw
      exact ⟨h1, h2, hw⟩
  · rw [mem_detect_troughs_iff]
    unfold TroughSpec
    constructor
    · rintro ⟨-, -, hw⟩
      exact hw
    · intro hw
      exact ⟨h1, h2, hw⟩
  · obtain ⟨k1, k2, -⟩ := (mem_detect_peaks_iff prices order i).mp ⟨e, he, hei⟩
    omega
  · obtain ⟨k1, k2, -⟩ := (mem_detect_troughs_iff prices order i).mp ⟨e, he, hei⟩
    omega

theorem detect_eq_nil (prices : List ℚ) (order : Nat) (h : prices.length < 2 * order + 1) :
    detect prices order = ([], []) := by
  unfold detect
  have h1 : (List.range prices.length).filter (isPeakAt prices order) = [] := by
    rw [List.filter_eq_nil]
    intro i hi hpk
    obtain ⟨k1, k2, -⟩ := (isPeakAt_iff prices order i).mp hpk
    omega
  have h2 : (List.range prices.length).filter (isTroughAt prices order) = [] := by
    rw [List.filter_eq_nil]
    intro i hi hpk
    obtain ⟨k1, k2, -⟩ := (isTroughAt_iff prices order i).mp hpk
    omega
  rw [h1, h2]
  rfl

theorem markIndices_nil (n : Nat) : markIndices n [] = List.replicate n false := by
  refine List.eq_replicate.mpr ⟨by simp [markIndices], fun b hb => ?_⟩
  unfold markIndices at hb
  obtain ⟨i, -, rfl⟩ := List.mem_map.mp hb
  rfl

theorem replicate_getD_false (n i : Nat) : (List.replicate n false).getD i false = false := by
  rw [List.getD_eq_getElem?_getD, List.getElem?_replicate]
  split <;> rfl

/-- C7: on a series shorter than `2*order+1` bars, extremum detection
returns empty peak and trough lists rather than an error, and
consequently the pattern list is empty and signal generation succeeds
with all-false signal sequences. -/
theorem claim_C7 (prices : List ℚ) (order : Nat) (bars : List Bar) (cfg : StrategyConfig)
    (hs : prices.length < 2 * order + 1)
    (hb1 : bars.length < 2 * cfg.peakOrder + 1)
    (hb2 : bars.length < 2 * cfg.troughOrder + 1) :
    detect prices order = ([], []) ∧
    calculate_indicators bars cfg = [] ∧
    generate_signals bars (calculate_indicators bars cfg) =
      Except.ok ⟨List.replicate bars.length false, List.replicate bars.length false⟩ := by
  have hlen : (bars.map (·.close)).length = bars.length := List.length_map _ _
  have h1 : detect (bars.map (·.close)) cfg.peakOrder = ([], []) :=
    detect_eq_nil _ _ (by omega)
  have h2 : detect (bars.map (·.close)) cfg.troughOrder = ([], []) :=
    detect_eq_nil _ _ (by omega)
  have hind : calculate_indicators bars cfg = [] := by
    unfold calculate_indicators
    dsimp only
    rw [h1, h2]
    rfl
  refine ⟨detect_eq_nil _ _ hs, hind, ?_⟩
  rw [hind]
  unfold generate_signals
  rw [show (([] : List PatternEvent).filter fun ev =>
      ev.kind == PatternKind.doubleBottom).map (·.confirmationIndex) = [] from rfl]
  rw [show (([] : List PatternEvent).filter fun ev =>
      ev.kind == PatternKind.doubleTop).map (·.confirmationIndex) = [] from rfl]
  rw [markIndices_nil]
  rw [if_pos]
  rw [List.all_eq_true]
  intro i hi
  rw [replicate_getD_false]
  rfl

theorem claim_C7_witness :
    detect [1, 2] 1 = ([], []) ∧
    calculate_indicators exSimBars ⟨1 / 50, 1, 10, 2, 2⟩ = [] ∧
    generate_signals exSimBars (calculate_indicators exSimBars ⟨1 / 50, 1, 10, 2, 2⟩) =
      Except.ok ⟨List.replicate exSimBars.length false, List.replicate exSimBars.length false⟩ :=
  claim_C7 [1, 2] 1 exSimBars ⟨1 / 50, 1, 10, 2, 2⟩ (by decide) (by decide) (by decide)

theorem markIndices_length (n : Nat) (idxs : List Nat) : (markIndices n idxs).length = n := by
  simp [markIndices]

theorem markIndices_getD (n : Nat) (idxs : List Nat) (i : Nat) :
    (markIndices n idxs).getD i false = (decide (i < n) && idxs.contains i) := by
  unfold markIndices
  rcases Nat.lt_or_ge i n with h | h
  · rw [List.getD_eq_getElem?_getD, List.getElem?_map, List.getElem?_range h]
    simp [h]
  · rw [List.getD_eq_default _ _ (by simpa using h)]
    simp [Nat.not_lt.mpr h]

/-- C5: whenever `generate_signals` produces a SignalSeries, its buy and
sell sequences have the bar sequence's length, buy is true exactly at the
DoubleBottom confirmation indices, sell exactly at the DoubleTop
confirmation indices, and no index has both signals set. -/
theorem claim_C5 (bars : List Bar) (pats : List PatternEvent) (s : SignalSeries)
    (h : generate_signals bars pats = Except.ok s) :
    s.buy.length = bars.length ∧ s.sell.length = bars.length ∧
    (∀ i, s.buy.getD i false = true ↔
      i < bars.length ∧ ∃ ev ∈ pats, ev.kind = PatternKind.doubleBottom ∧
        ev.confirmationIndex = i) ∧
    (∀ i, s.sell.getD i false = true ↔
      i < bars.length ∧ ∃ ev ∈ pats, ev.kind = PatternKind.doubleTop ∧
        ev.confirmationIndex = i) ∧
    ∀ i, ¬(s.buy.getD i false = true ∧ s.sell.getD i false = true) := by
  unfold generate_signals at h
  dsimp only at h
  split at h
  · injection h with h
    cases h
    refine ⟨markIndices_length _ _, markIndices_length _ _, fun i => ?_, fun i => ?_,
      fun i hcon => ?_⟩
    · rw [markIndices_getD]
      simp only [Bool.and_eq_true, decide_eq_true_eq, List.contains, List.elem_iff,
        List.mem_map, List.mem_filter, beq_iff_eq]
      constructor
      · rintro ⟨hi, ev, ⟨hev, hk⟩, hc⟩
        exact ⟨hi, ev, hev, hk, hc⟩
      · rintro ⟨hi, ev, hev, hk, hc⟩
        exact ⟨hi, ev, ⟨hev, hk⟩, hc⟩
    · rw [markIndices_getD]
      simp only [Bool.and_eq_true, decide_eq_true_eq, List.contains, List.elem_iff,
        List.mem_map, List.mem_filter, beq_iff_eq]
      constructor
      · rintro ⟨hi, ev, ⟨hev, hk⟩, hc⟩
        exact ⟨hi, ev, hev, hk, hc⟩
      · rintro ⟨hi, ev, hev, hk, hc⟩
        exact ⟨hi, ev, ⟨hev, hk⟩, hc⟩
    · obtain ⟨hb, hs2⟩ := hcon
      rcases Nat.lt_or_ge i bars.length with hi | hi
      · have hall := List.all_eq_true.mp (by assumption) i (List.mem_range.mpr hi)
        rw [hb, hs2] at hall
        simp at hall
      · rw [markIndices_getD] at hb
        simp [Nat.not_lt.mpr hi] at hb
  · exact absurd h (by simp)

theorem claim_C5_witness :
    (markIndices 9 ([] : List Nat)).length = exBars.length ∧
    ¬((markIndices 9 ([] : List Nat)).getD 8 false = true ∧
      (markIndices 9 [8]).getD 8 false = true) := by
  have h := claim_C5 exBars [exEvent] ⟨markIndices 9 [], markIndices 9 [8]⟩ rfl
  exact ⟨h.1, h.2.2.2.2 8⟩

/-- C9: detection and signal generation are deterministic — two runs of
the pipeline on identical bars and configuration return identical
PatternEvent lists and identical SignalSeries results; the model is a
pure function, so the two components of `runPipelineTwice` coincide
definitionally. -/
theorem claim_C9 (bars : List Bar) (cfg : StrategyConfig) :
    (runPipelineTwice bars cfg).1 = (runPipelineTwice bars cfg).2 := rfl

theorem simStep_inv (sizing : ℚ) (s : SimState) (st : Bar × Bool × Bool)
    (h : s.openedCount = s.trades.length + (if s.position.isSome then 1 else 0)) :
    (simStep sizing s st).openedCount =
      (simStep sizing s st).trades.length +
        (if (simStep sizing s st).position.isSome then 1 else 0) := by
  obtain ⟨bar, b, se⟩ := st
  unfold simStep
  dsimp only
  split
  · split
    · simp_all
    · simp_all
  · split
    · simp_all
    · simp_all

theorem simRun_foldl_inv (sizing : ℚ) :
    ∀ (steps : List (Bar × Bool × Bool)) (s : SimState),
      s.openedCount = s.trades.length + (if s.position.isSome then 1 else 0) →
      (steps.foldl (simStep sizing) s).openedCount =
        (steps.foldl (simStep sizing) s).trades.length +
          (if (steps.foldl (simStep sizing) s).position.isSome then 1 else 0) := by
  intro steps
  induction steps with
  | nil => exact fun s h => h
  | cons st rest ih => exact fun s h => ih _ (simStep_inv sizing s st h)

theorem simulate_eq (initialCapital sizing : ℚ) (bars : List Bar)
    (buySig sellSig : List Bool) :
    simulate initialCapital sizing bars buySig sellSig =
      match (simRun initialCapital sizing bars buySig sellSig).position, bars.getLast? with
      | some p, some lastBar =>
        { simRun initialCapital sizing bars buySig sellSig with
          position := none,
          equity := (simRun initialCapital sizing bars buySig sellSig).equity +
            (mkTrade p lastBar.timestamp lastBar.close).profitUsd,
          trades := (simRun initialCapital sizing bars buySig sellSig).trades ++
            [mkTrade p lastBar.timestamp lastBar.close] }
      | _, _ => simRun initialCapital sizing bars buySig sellSig := rfl

/-- C4: the simulator ignores a buy while Long and a sell while Flat, a
position still open after the last bar is force-closed at the final close
price, every simulate run ends Flat, and the number of recorded trades
equals the number of opened positions. -/
theorem claim_C4 (initialCapital sizing : ℚ) (bars : List Bar) (buySig sellSig : List Bool) :
    (∀ (s : SimState) (bar : Bar), s.position = none →
      (simStep sizing s (bar, false, true)).position = none ∧
      (simStep sizing s (bar, false, true)).trades = s.trades ∧
      (simStep sizing s (bar, false, true)).openedCount = s.openedCount) ∧
    (∀ (s : SimState) (bar : Bar) (p : OpenPosition), s.position = some p →
      (simStep sizing s (bar, true, false)).position = some p ∧
      (simStep sizing s (bar, true, false)).trades = s.trades ∧
      (simStep sizing s (bar, true, false)).equity = s.equity) ∧
    (simulate initialCapital sizing bars buySig sellSig).position = none ∧
    (simulate initialCapital sizing bars buySig sellSig).trades.length =
      (simulate initialCapital sizing bars buySig sellSig).openedCount ∧
    ∀ p, (simRun initialCapital sizing bars buySig sellSig).position = some p →
      ∃ lb, bars.getLast? = some lb ∧
        (simulate initialCapital sizing bars buySig sellSig).trades =
          (simRun initialCapital sizing bars buySig sellSig).trades ++
            [mkTrade p lb.timestamp lb.close] := by
  have hinv : (simRun initialCapital sizing bars buySig sellSig).openedCount =
      (simRun initialCapital sizing bars buySig sellSig).trades.length +
        (if (simRun initialCapital sizing bars buySig sellSig).position.isSome
          then 1 else 0) :=
    simRun_foldl_inv sizing (bars.zip (buySig.zip sellSig))
      ⟨none, initialCapital, [], [], 0⟩ (by simp)
  have hempty : bars = [] →
      simRun initialCapital sizing bars buySig sellSig =
        ⟨none, initialCapital, [], [], 0⟩ := by
    intro hb
    subst hb
    rfl
  refine ⟨fun s bar hpos => ?_, fun s bar p hpos => ?_, ?_, ?_, fun p hpos => ?_⟩
  · unfold simStep
    rw [hpos]
    exact ⟨hpos, rfl, rfl⟩
  · unfold simStep
    rw [hpos]
    exact ⟨hpos, rfl, rfl⟩
  · rw [simulate_eq]
    rcases hp : (simRun initialCapital sizing bars buySig sellSig).position with _ | p
    · rcases hl : bars.getLast? with _ | lb
      · exact hp
      · exact hp
    · rcases hl : bars.getLast? with _ | lb
      · have hb : bars = [] := List.getLast?_eq_none.mp hl
        rw [hempty hb] at hp
        exact absurd hp (by simp)
      · rfl
  · rw [simulate_eq]
    rcases hp : (simRun initialCapital sizing bars buySig sellSig).position with _ | p
    · rw [hp, if_neg (by simp)] at hinv
      rcases hl : bars.getLast? with _ | lb
      · dsimp only
        omega
      · dsimp only
        omega
    · rw [hp, if_pos (by simp)] at hinv
      rcases hl : bars.getLast? with _ | lb
      · have hb : bars = [] := List.getLast?_eq_none.mp hl
        rw [hempty hb] at hp
        exact absurd hp (by simp)
      · dsimp only
        simp only [List.length_append, List.length_singleton]
        omega
  · rcases hl : bars.getLast? with _ | lb
    · have hb : bars = [] := List.getLast?_eq_none.mp hl
      rw [hempty hb] at hpos
      exact absurd hpos (by simp)
    · refine ⟨lb, rfl, ?_⟩
      rw [simulate_eq, hpos, hl]

theorem claim_C4_witness :
    (simStep 1 ⟨none, 1000, [], [], 0⟩ (⟨0, 1, 1, 1, 1, 0⟩, false, true)).position = none ∧
    (simulate 1000 1 exSimBars [true, false, false] [false, false, false]).position = none := by
  have h := claim_C4 1000 1 exSimBars [true, false, false] [false, false, false]
  exact ⟨(h.1 ⟨none, 1000, [], [], 0⟩ ⟨0, 1, 1, 1, 1, 0⟩ rfl).1, h.2.2.1⟩

/-- C6: metric computation is total on degenerate inputs — the win rate
is 0 for an empty trade log, the Sharpe ratio is 0 when there are no
returns or the standard deviation is 0, and the profit factor takes its
documented sentinel (0) when there are no losing trades or no trades;
each degenerate case short-circuits before any quotient is formed. -/
theorem claim_C6 (sqrtFn : ℚ → ℚ) (annualization : ℚ) (trades : List Trade)
    (returns : List ℚ) :
    (trades.length = 0 → win_rate_pct trades = 0) ∧
    (returns = [] → sharpe sqrtFn annualization returns = 0) ∧
    (sqrtFn (varianceQ returns) = 0 → sharpe sqrtFn annualization returns = 0) ∧
    ((∀ t ∈ trades, ¬ t.profitUsd < 0) → profit_factor trades = 0) ∧
    (trades = [] → profit_factor trades = 0) := by
  refine ⟨fun h => ?_, fun h => ?_, fun h => ?_, fun h => ?_, fun h => ?_⟩
  · unfold win_rate_pct
    rw [if_pos h]
  · subst h
    rfl
  · unfold sharpe
    by_cases he : returns.isEmpty
    · rw [if_pos he]
    · rw [if_neg he]
      dsimp only
      rw [if_pos h]
  · have hfil : trades.filter (fun t => decide (t.profitUsd < 0)) = [] :=
      List.filter_eq_nil.mpr (fun t ht => by simpa using h t ht)
    unfold profit_factor
    dsimp only
    rw [hfil]
    simp
  · subst h
    rfl

theorem claim_C6_witness :
    win_rate_pct [] = 0 ∧ sharpe id 252 [] = 0 ∧ profit_factor [] = 0 := by
  have h := claim_C6 id 252 [] []
  exact ⟨h.1 rfl, h.2.1 rfl, h.2.2.2.1 (fun t ht => absurd ht (List.not_mem_nil t))⟩

theorem tsStrictlyIncreasing_iff :
    ∀ raw : List RawBar, tsStrictlyIncreasing raw = true ↔
      List.Pairwise (fun a b : RawBar => a.timestamp < b.timestamp) raw := by
  intro raw
  induction raw with
  | nil => simp [tsStrictlyIncreasing]
  | cons a t ih =>
    cases t with
    | nil => simp [tsStrictlyIncreasing]
    | cons b t2 =>
      rw [show tsStrictlyIncreasing (a :: b :: t2) =
          (decide (a.timestamp < b.timestamp) && tsStrictlyIncreasing (b :: t2)) from rfl]
      rw [Bool.and_eq_true, decide_eq_true_eq, ih]
      constructor
      · rintro ⟨hab, hp⟩
        refine List.Pairwise.cons (fun x hx => ?_) hp
        rcases List.mem_cons.mp hx with rfl | hx2
        · exact hab
        · exact lt_trans hab (List.rel_of_pairwise_cons hp hx2)
      · intro hp
        exact ⟨List.rel_of_pairwise_cons hp (List.mem_cons_self _ _), hp.of_cons⟩

/-- C8: the ingestion gate accepts a raw bar sequence exactly when its
timestamps are strictly increasing and no OHLC field is null, and an
accepted sequence in particular has pairwise distinct timestamps; a
violating sequence is rejected with the fatal DataQualityError before
any detection runs. -/
theorem claim_C8 (raw : List RawBar) :
    ((∃ bars, validate_bars raw = Except.ok bars) ↔
      List.Pairwise (fun a b : RawBar => a.timestamp < b.timestamp) raw ∧
        ∀ b ∈ raw, rawComplete b = true) ∧
    ∀ bars, validate_bars raw = Except.ok bars →
      List.Pairwise (fun a b : RawBar => a.timestamp ≠ b.timestamp) raw := by
  have hiff : (∃ bars, validate_bars raw = Except.ok bars) ↔
      (tsStrictlyIncreasing raw && raw.all rawComplete) = true := by
    unfold validate_bars
    constructor
    · rintro ⟨bars, hb⟩
      by_cases hc : (tsStrictlyIncreasing raw && raw.all rawComplete) = true
      · exact hc
      · rw [if_neg hc] at hb
        exact absurd hb (by simp)
    · intro hc
      rw [if_pos hc]
      exact ⟨_, rfl⟩
  constructor
  · rw [hiff, Bool.and_eq_true, tsStrictlyIncreasing_iff, List.all_eq_true]
  · intro bars hb
    have hc := hiff.mp ⟨bars, hb⟩
    rw [Bool.and_eq_true] at hc
    exact ((tsStrictlyIncreasing_iff raw).mp hc.1).imp fun h => Nat.ne_of_lt h

theorem claim_C8_witness :
    List.Pairwise (fun a b : RawBar => a.timestamp ≠ b.timestamp) exRaw :=
  (claim_C8 exRaw).2 (exRaw.map toBar) rfl

theorem foldl_rowmax_spec (f : Row → ℚ) :
    ∀ (l : List Row) (a : ℚ),
      (l.foldl (fun acc r => max acc (f r)) a = a ∨
        ∃ r ∈ l, l.foldl (fun acc r => max acc (f r)) a = f r) ∧
      a ≤ l.foldl (fun acc r => max acc (f r)) a ∧
      ∀ r ∈ l, f r ≤ l.foldl (fun acc r => max acc (f r)) a := by
  intro l
  induction l with
  | nil => exact fun a => ⟨Or.inl rfl, le_refl a, by simp⟩
  | cons x t ih =>
    intro a
    obtain ⟨hmem, hle, hall⟩ := ih (max a (f x))
    rw [List.foldl_cons]
    have hax : a ≤ max a (f x) := le_max_left _ _
    have hxx : f x ≤ max a (f x) := le_max_right _ _
    refine ⟨?_, le_trans hax hle, fun r hr => ?_⟩
    · rcases hmem with h | ⟨r, hr, hfr⟩
      · rcases max_choice a (f x) with hm | hm
        · exact Or.inl (h.trans hm)
        · exact Or.inr ⟨x, List.mem_cons_self _ _, h.trans hm⟩
      · exact Or.inr ⟨r, List.mem_cons_of_mem _ hr, hfr⟩
    · rcases List.mem_cons.mp hr with rfl | hr2
      · exact le_trans hxx hle
      · exact hall r hr2

theorem foldl_rowmin_spec (f : Row → ℚ) :
    ∀ (l : List Row) (a : ℚ),
      (l.foldl (fun acc r => min acc (f r)) a = a ∨
        ∃ r ∈ l, l.foldl (fun acc r => min acc (f r)) a = f r) ∧
      l.foldl (fun acc r => min acc (f r)) a ≤ a ∧
      ∀ r ∈ l, l.foldl (fun acc r => min acc (f r)) a ≤ f r := by
  intro l
  induction l with
  | nil => exact fun a => ⟨Or.inl rfl, le_refl a, by simp⟩
  | cons x t ih =>
    intro a
    obtain ⟨hmem, hle, hall⟩ := ih (min a (f x))
    rw [List.foldl_cons]
    have hax : min a (f x) ≤ a := min_le_left _ _
    have hxx : min a (f x) ≤ f x := min_le_right _ _
    refine ⟨?_, le_trans hle hax, fun r hr => ?_⟩
    · rcases hmem with h | ⟨r, hr, hfr⟩
      · rcases min_choice a (f x) with hm | hm
        · exact Or.inl (h.trans hm)
        · exact Or.inr ⟨x, List.mem_cons_self _ _, h.trans hm⟩
      · exact Or.inr ⟨r, List.mem_cons_of_mem _ hr, hfr⟩
    · rcases List.mem_cons.mp hr with rfl | hr2
      · exact le_trans hle hxx
      · exact hall r hr2

theorem earliestRow_spec :
    ∀ (rest : List Row) (first : Row),
      (earliestRow first rest = first ∨ earliestRow first rest ∈ rest) ∧
      (earliestRow first rest).timestamp ≤ first.timestamp ∧
      ∀ r ∈ rest, (earliestRow first rest).timestamp ≤ r.timestamp := by
  intro rest
  induction rest with
  | nil => exact fun first => ⟨Or.inl rfl, le_refl _, by simp⟩
  | cons x t ih =>
    intro first
    unfold earliestRow at ih ⊢
    rw [List.foldl_cons]
    obtain ⟨hmem, hle, hall⟩ := ih (if x.timestamp < first.timestamp then x else first)
    have hbf : (if x.timestamp < first.timestamp then x else first).timestamp ≤
        first.timestamp := by
      split
      · omega
      · exact le_refl _
    have hbx : (if x.timestamp < first.timestamp then x else first).timestamp ≤
        x.timestamp := by
      split
      · exact le_refl _
      · omega
    refine ⟨?_, le_trans hle hbf, fun r hr => ?_⟩
    · rcases hmem with h | h
      · rw [h]
        split
        · exact Or.inr (List.mem_cons_self _ _)
        · exact Or.inl rfl
      · exact Or.inr (List.mem_cons_of_mem _ h)
    · rcases List.mem_cons.mp hr with rfl | hr2
      · exact le_trans hle hbx
      · exact hall r hr2

theorem latestRow_spec :
    ∀ (rest : List Row) (first : Row),
      (latestRow first rest = first ∨ latestRow first rest ∈ rest) ∧
      first.timestamp ≤ (latestRow first rest).timestamp ∧
      ∀ r ∈ rest, r.timestamp ≤ (latestRow first rest).timestamp := by
  intro rest
  induction rest with
  | nil => exact fun first => ⟨Or.inl rfl, le_refl _, by simp⟩
  | cons x t ih =>
    intro first
    unfold latestRow at ih ⊢
    rw [List.foldl_cons]
    obtain ⟨hmem, hle, hall⟩ := ih (if first.timestamp ≤ x.timestamp then x else first)
    have hbf : first.timestamp ≤
        (if first.timestamp ≤ x.timestamp then x else first).timestamp := by
      split
      · omega
      · exact le_refl _
    have hbx : x.timestamp ≤
        (if first.timestamp ≤ x.timestamp then x else first).timestamp := by
      split
      · exact le_refl _
      · omega
    refine ⟨?_, le_trans hbf hle, fun r hr => ?_⟩
    · rcases hmem with h | h
      · rw [h]
        split
        · exact Or.inr (List.mem_cons_self _ _)
        · exact Or.inl rfl
      · exact Or.inr (List.mem_cons_of_mem _ h)
    · rcases List.mem_cons.mp hr with rfl | hr2
      · exact le_trans hbx hle
      · exact hall r hr2

theorem aggregateGroup_spec (sym : String) (k : Nat) (g : List Row) (agg : AggRow)
    (h : aggregateGroup sym k g = some agg) :
    agg.symbol = sym ∧ agg.timestamp = k ∧ AggSpec agg g := by
  cases g with
  | nil => exact absurd h (by simp [aggregateGroup])
  | cons first rest =>
    unfold aggregateGroup at h
    injection h with h
    subst h
    obtain ⟨hxmem, hxle, hxall⟩ := foldl_rowmax_spec (fun r => r.high) rest first.high
    obtain ⟨hnmem, hnle, hnall⟩ := foldl_rowmin_spec (fun r => r.low) rest first.low
    obtain ⟨hemem, hele, heall⟩ := earliestRow_spec rest first
    obtain ⟨hlmem, hlle, hlall⟩ := latestRow_spec rest first
    refine ⟨rfl, rfl, ?_, ?_, ?_, ?_, rfl, ?_, ?_⟩
    · rcases hxmem with hx | ⟨r, hr, hfr⟩
      · exact ⟨first, List.mem_cons_self _ _, hx⟩
      · exact ⟨r, List.mem_cons_of_mem _ hr, hfr⟩
    · intro r hr
      rcases List.mem_cons.mp hr with rfl | hr2
      · exact hxle
      · exact hxall r hr2
    · rcases hnmem with hn | ⟨r, hr, hfr⟩
      · exact ⟨first, List.mem_cons_self _ _, hn⟩
      · exact ⟨r, List.mem_cons_of_mem _ hr, hfr⟩
    · intro r hr
      rcases List.mem_cons.mp hr with rfl | hr2
      · exact hnle
      · exact hnall r hr2
    · refine ⟨earliestRow first rest, ?_, rfl, fun q hq => ?_⟩
      · rcases hemem with he | he
        · rw [he]
          exact List.mem_cons_self _ _
        · exact List.mem_cons_of_mem _ he
      · rcases List.mem_cons.mp hq with rfl | hq2
        · exact hele
        · exact heall q hq2
    · refine ⟨latestRow first rest, ?_, rfl, fun q hq => ?_⟩
      · rcases hlmem with hl | hl
        · rw [hl]
          exact List.mem_cons_self _ _
        · exact List.mem_cons_of_mem _ hl
      · rcases List.mem_cons.mp hq with rfl | hq2
        · exact hlle
        · exact hlall q hq2

/-- C10: every bar produced by `aggregate_bars` (and by the minute-level
timeframe views) over its constituent 1-minute rows has high equal to the
maximum constituent high, low the minimum constituent low, volume the sum
of constituent volumes, open the open of an earliest constituent, and
close the close of a latest constituent. -/
theorem claim_C10 :
    (∀ (rows : List Row) (p_symbol : String) (p_start p_stop p_interval : Nat)
        (agg : AggRow), agg ∈ aggregate_bars rows p_symbol p_start p_stop p_interval →
      agg.symbol = p_symbol ∧
      AggSpec agg ((aggSelect rows p_symbol p_start p_stop).filter
        (fun r => minuteBucket p_interval r.timestamp == agg.timestamp))) ∧
    (∀ (rows : List Row) (p : Nat) (agg : AggRow), agg ∈ timeframeView rows p →
      AggSpec agg (rows.filter
        (fun r => r.symbol == agg.symbol &&
          (minuteBucket p r.timestamp == agg.timestamp)))) := by
  constructor
  · intro rows sym start stop p agg hmem
    unfold aggregate_bars at hmem
    dsimp only at hmem
    obtain ⟨k, hk, hsome⟩ := List.mem_filterMap.mp hmem
    obtain ⟨hs, ht, hspec⟩ := aggregateGroup_spec _ _ _ _ hsome
    subst ht
    exact ⟨hs, hspec⟩
  · intro rows p agg hmem
    unfold timeframeView at hmem
    dsimp only at hmem
    obtain ⟨sk, hk, hsome⟩ := List.mem_filterMap.mp hmem
    obtain ⟨hs, ht, hspec⟩ := aggregateGroup_spec _ _ _ _ hsome
    rw [hs, ht]
    exact hspec

theorem claim_C10_witness :
    exAgg.symbol = "X" ∧
    AggSpec exAgg ((aggSelect exRows "X" 0 100).filter
      (fun r => minuteBucket 5 r.timestamp == exAgg.timestamp)) :=
  claim_C10.1 exRows "X" 0 100 5 exAgg (by decide)

theorem claim_C2_witness : ∃ e ∈ (detect [1, 3, 2] 1).1, e.index = 1 :=
  ((claim_C2 [1, 3, 2] 1 (by decide)).1 1 (by decide) (by decide)).mpr (by
    intro j h1 h2 h3
    interval_cases j
    · decide
    · exact absurd rfl h3
    · decide)

end Algo
